import Mathlib

/-!
Verification of the core of `tspbitcity.py` (Cabalist/tsp_art_tools).

The development shallowly embeds the two decoders (`__load_pbm_p4`,
`__load_pbm_p1`, `__load_xyr`) and the tour renderer (`write_tspsvg`) of the
class `TSPBitCity`.  Python byte streams are modelled as `List Nat`, text
lines as `List Char` or as pre-tokenised records, machine integers as `Int` /
`Nat`, and Python floats as exact rationals `ℚ` (the numeric pipeline of
`__load_xyr` -- min, max, subtraction, a single division, rounding -- is
modelled with exact arithmetic; `round` is Mathlib's round-half-up, and no
statement below depends on the tie-breaking rule of rounding).

State mutation (`self.coordinates`) is modelled by explicit accumulation:
every loader returns the final contents of `self.coordinates` together with
an optional error, so that the partially filled registry left behind by a
failed decode remains observable, exactly as in the Python object.
Controlled failures (a message on stderr followed by `return False`) and
uncaught Python exceptions (`IndexError`, `ValueError`) are distinguished by
separate error constructors.
-/

/-! ## Tour renderer: `write_tspsvg` (tspbitcity.py lines 396-522)

The renderer writes SVG text incrementally.  We model the emitted drawing
structurally: one `PathPrim` per `<path .../>` element, recording its absolute
start point (already y-flipped, as written after `d="m`), the list of relative
line-to deltas written into it, and whether it was terminated with the
explicit `Z` loop marker.  A `.error` result models the source's
`f.close(); os.unlink(outfile); return False` sequence: the destination file
is removed, so no drawing (not even a partial one) survives a failure. -/

structure PathPrim where
  startX : Int
  startY : Int
  deltas : List (Int × Int)
  closedZ : Bool
deriving Repr, DecidableEq

inductive SvgError where
  | invalidTourIndex (idx : Int)
deriving Repr, DecidableEq

/-- The renderer's loop state: `lastCity`, `path`, `first_path`, `points`
from the source, plus the structural accumulator for emitted paths
(`donePaths`) and the path currently being written (`curStart`,
`curDeltas`). -/
structure RState where
  lastCity : Option (Int × Int)
  isPath : Bool
  firstPath : Bool
  points : Nat
  donePaths : List PathPrim
  curStart : Int × Int
  curDeltas : List (Int × Int)
deriving Repr, DecidableEq

/-- Source lines 477-489: open a new path element.  `last_city` is set from
the current city only when it is still `None` (a Python 2-tuple is always
truthy, so an existing `last_city` is kept); the path start is written as
`m last_city[0], height - last_city[1]`. -/
def openPath (coords : List (Int × Int)) (height : Int) (i : Nat) (s : RState) :
    RState :=
  let lc := s.lastCity.getD (coords.getD i (0, 0))
  { s with isPath := true, lastCity := some lc,
           curStart := (lc.1, height - lc.2), curDeltas := [] }

/-- Source lines 491-498: write the relative delta from `last_city` to the
current city (y negated), advance `last_city`, bump `points`. -/
def moveStep (coords : List (Int × Int)) (i : Nat) (s : RState) : RState :=
  let lastc := s.lastCity.getD (0, 0)
  let next := coords.getD i (0, 0)
  { s with
      curDeltas := s.curDeltas ++ [(next.1 - lastc.1, -(next.2 - lastc.2))],
      lastCity := some next, points := s.points + 1 }

/-- Source lines 500-505: `points > max_segments` fired; terminate the current
path element without `Z`, clear the open-path flag, record that the first
path is over, and reset `points` to 1. -/
def splitStep (s : RState) : RState :=
  { s with isPath := false, firstPath := false, points := 1,
           donePaths :=
             s.donePaths ++ [⟨s.curStart.1, s.curStart.2, s.curDeltas, false⟩] }

/-- Source lines 507-516: after the tour loop, a still-open path is terminated
with `Z` when it is the only path ever opened (`first_path`), else without. -/
def finishPaths (s : RState) : List PathPrim :=
  if s.isPath then
    s.donePaths ++ [⟨s.curStart.1, s.curStart.2, s.curDeltas, s.firstPath⟩]
  else s.donePaths

/-- Source lines 468-516: the `for city_idx in tour` loop.  `m` is the value
of `max_segments` after the `max_segments += 1` adjustment (0 means
unlimited).  An out-of-range index aborts with `InvalidTourIndex` after the
destination has been unlinked (source lines 471-475). -/
def svgLoop (coords : List (Int × Int)) (height : Int) (m : Nat) :
    List Int → RState → Except SvgError (List PathPrim)
  | [], s => .ok (finishPaths s)
  | idx :: rest, s =>
    if idx < 0 ∨ (coords.length : Int) ≤ idx then
      .error (.invalidTourIndex idx)
    else if s.isPath = false ∧ s.points = 0 then
      svgLoop coords height m rest (openPath coords height idx.toNat s)
    else
      let s1 := if s.isPath then s else openPath coords height idx.toNat s
      let s2 := moveStep coords idx.toNat s1
      if m ≠ 0 ∧ m < s2.points then
        svgLoop coords height m rest (splitStep s2)
      else
        svgLoop coords height m rest s2

/-- `TSPBitCity.write_tspsvg` (tspbitcity.py lines 396-522), restricted to
its path-emission core.  `max_segments : Nat` models the Python int after the
`max_segments < 0` guard of line 400; line 405-406 adds 1 to a nonzero
`max_segments` before the loop.  The SVG preamble/postamble and color strings
carry no information about the claims and are not modelled. -/
def write_tspsvg (coords : List (Int × Int)) (height : Int)
    (max_segments : Nat) (tour : List Int) : Except SvgError (List PathPrim) :=
  let m := if max_segments ≠ 0 then max_segments + 1 else 0
  svgLoop coords height m tour
    { lastCity := none, isPath := false, firstPath := true, points := 0,
      donePaths := [], curStart := (0, 0), curDeltas := [] }

/-- Number of `<path>` primitives in an emitted drawing. -/
def pathCount (ps : List PathPrim) : Nat := ps.length

/-- Total number of relative line-to deltas written across all paths. -/
def deltaCount (ps : List PathPrim) : Nat :=
  (ps.map (fun p => p.deltas.length)).sum

/-- Number of paths terminated with the explicit `Z` loop marker. -/
def zCount (ps : List PathPrim) : Nat :=
  (ps.filter (fun p => p.closedZ)).length

/-- The drawing left on disk: present on success, absent after a failure
(the source unlinks the destination before returning `False`). -/
def svgFile (r : Except SvgError (List PathPrim)) : Option (List PathPrim) :=
  r.toOption

/-- The paths of a successful run ( `[]` for a failed one); used to state
counting facts about concrete runs. -/
def okPaths (r : Except SvgError (List PathPrim)) : List PathPrim :=
  (r.toOption).getD []

/-- The identity tour `[0, 1, ..., n-1]`. -/
def idTour (n : Nat) : List Int := (List.range n).map Int.ofNat

/-! ## Packed bitmap decoder: `__load_pbm_p4` (tspbitcity.py lines 89-153)

The byte stream after the header is a `List Nat` (one entry per byte).
`self.coordinates` accumulation and the boolean/exception outcome are
returned as a pair.  `truncated1` / `truncated2` are the controlled failures
that print `1 Premature end-of-data` (line 115) and `2 Premature
end-of-file` (line 150) and return `False`; `indexError` is the uncaught
Python `IndexError` raised by `row_bytes[column_byte_index]` (line 146) when
`column_byte_index < nbytes` but the row read returned fewer bytes;
`valueError` is the `ValueError` raised for non-positive dimensions
(lines 90-93). -/

inductive P4Err where
  | valueError
  | truncated1
  | truncated2
  | indexError
deriving Repr, DecidableEq

/-- Source lines 126-151: the `for column in range(0, self.width)` loop.
`n` counts the columns still to process (`n + col = width`), `bIdx` is
`column_byte_index`, `b` is `column_byte`, `mask` is `pixel_mask`. -/
def p4Cols (w nbytes : Nat) (rowBytes : List Nat) (row : Int) :
    Nat → Nat → Nat → Nat → Nat → List (Int × Int) × Option P4Err
  | 0, _, _, _, _ => ([], none)
  | n + 1, col, bIdx, b, mask =>
    let acc : List (Int × Int) :=
      if mask &&& b ≠ 0 then [((col : Int), row)] else []
    let mask1 := mask >>> 1
    if mask1 = 0 then
      let bIdx1 := bIdx + 1
      if bIdx1 < nbytes then
        match rowBytes.get? bIdx1 with
        | some b1 =>
            let r := p4Cols w nbytes rowBytes row n (col + 1) bIdx1 b1 128
            (acc ++ r.1, r.2)
        | none => (acc, some .indexError)
      else if col < w - 1 then
        (acc, some .truncated2)
      else
        let r := p4Cols w nbytes rowBytes row n (col + 1) bIdx1 b 0
        (acc ++ r.1, r.2)
    else
      let r := p4Cols w nbytes rowBytes row n (col + 1) bIdx b mask1
      (acc ++ r.1, r.2)

/-- Source lines 108-151: the `for row in range(self.height - 1, -1, -1)`
loop.  The argument counts the rows still to process; the row being scanned
has y-coordinate `rowsLeft - 1`.  Each iteration reads `nbytes` bytes
(`f.read(nbytes)` = `take nbytes`, returning fewer at end of stream) and
fails when the read yields `b''` or the single byte `b'\n'` (line 114). -/
def p4Rows (w nbytes : Nat) : Nat → List Nat → List (Int × Int) × Option P4Err
  | 0, _ => ([], none)
  | rowsLeft + 1, stream =>
    let rowBytes := stream.take nbytes
    if rowBytes = [] ∨ rowBytes = [10] then
      ([], some .truncated1)
    else
      let r := p4Cols w nbytes rowBytes ((rowsLeft : Int)) w 0 0
        (rowBytes.headD 0) 128
      match r.2 with
      | some e => (r.1, some e)
      | none =>
          let r1 := p4Rows w nbytes rowsLeft (stream.drop nbytes)
          (r.1 ++ r1.1, r1.2)

/-- `TSPBitCity.__load_pbm_p4` (tspbitcity.py lines 89-153): dimensions
`w × h`, pixel byte stream `stream`; returns the final contents of
`self.coordinates` and the outcome (`none` = returned `True`). -/
def load_pbm_p4 (w h : Nat) (stream : List Nat) :
    List (Int × Int) × Option P4Err :=
  if w = 0 ∨ h = 0 then ([], some .valueError)
  else p4Rows w ((w + 7) / 8) h stream

/-! ## Text bitmap decoder: `__load_pbm_p1` (tspbitcity.py lines 156-231) -/

inductive P1Err where
  | valueError
  | tooMuchData
  | invalidContent
  | truncated
deriving Repr, DecidableEq

/-- Python `str.strip()` on a line: drop leading and trailing whitespace. -/
def pyStrip (l : List Char) : List Char :=
  ((l.dropWhile Char.isWhitespace).reverse.dropWhile Char.isWhitespace).reverse

/-- Source lines 207-222: the `for each_byte in line` loop over one stripped
line, threading the `(column, row)` cursor.  A `'1'` appends the cursor
position, a `'0'` appends nothing, anything else is `InvalidContent`
(lines 211-213); the cursor then advances and wraps at `width`. -/
def p1Chars (w : Nat) :
    List Char → Nat → Int → List (Int × Int) × Nat × Int × Option P1Err
  | [], col, row => ([], col, row, none)
  | c :: rest, col, row =>
    if c = '1' ∨ c = '0' then
      let acc : List (Int × Int) := if c = '1' then [((col : Int), row)] else []
      let st := if col + 1 ≥ w then ((0 : Nat), row - 1) else (col + 1, row)
      let r := p1Chars w rest st.1 st.2
      (acc ++ r.1, r.2)
    else
      ([], col, row, some .invalidContent)

/-- Source lines 194-222: the `for line in f` loop.  Stripped-empty and
comment lines are skipped; a line beginning while `row < 0` is
`Too much data` (lines 202-204). -/
def p1Lines (w : Nat) :
    List (List Char) → Nat → Int → List (Int × Int) × Nat × Int × Option P1Err
  | [], col, row => ([], col, row, none)
  | line :: rest, col, row =>
    let l := pyStrip line
    if l = [] ∨ l.headD ' ' = '#' then p1Lines w rest col row
    else if row < 0 then ([], col, row, some .tooMuchData)
    else
      let r := p1Chars w l col row
      match r.2.2.2 with
      | some _ => r
      | none =>
          let r1 := p1Lines w rest r.2.1 r.2.2.1
          (r.1 ++ r1.1, r1.2)

/-- `TSPBitCity.__load_pbm_p1` (tspbitcity.py lines 156-231): the final
sanity check (lines 226-231) demands the cursor land exactly on
`(column, row) = (0, -1)`. -/
def load_pbm_p1 (w h : Nat) (lines : List (List Char)) :
    List (Int × Int) × Option P1Err :=
  if w = 0 ∨ h = 0 then ([], some .valueError)
  else
    let r := p1Lines w lines 0 ((h : Int) - 1)
    match r.2.2.2 with
    | some e => (r.1, some e)
    | none =>
        if r.2.1 = 0 ∧ r.2.2.1 = -1 then (r.1, none)
        else (r.1, some .truncated)

/-! ## Point file decoder: `__load_xyr` (tspbitcity.py lines 237-276)

Input lines are pre-tokenised: a comment line (Python
`line.startswith('#')`), or a data line already split on blanks with its
fields parsed as exact rationals.  The spec-relevant structure -- comment
skipping, the 2-or-3 field count check, the combined extrema, the guarded
scaling, and rounding -- is kept verbatim. -/

inductive XyrLine where
  | comment
  | vals (fields : List ℚ)

inductive XyrErr where
  /-- controlled failure: `Invalid content in file ...` + `return False`
  (lines 250-252). -/
  | invalidContent
  /-- the controlled `EmptyInput` failure the specification prescribes for a
  record-free file; the source has no such path and never produces it. -/
  | emptyInput
  /-- the uncaught Python `ValueError` raised by `min(px)` on line 258 when
  zero records were collected. -/
  | exnMinEmpty
deriving Repr, DecidableEq

/-- Source lines 243-255: the record-collection loop filling `px` and `py`.
`none` models the `return False` taken on a bad field count. -/
def xyrCollect : List XyrLine → Option (List ℚ × List ℚ)
  | [] => some ([], [])
  | .comment :: rest => xyrCollect rest
  | .vals fs :: rest =>
    if fs.length = 2 ∨ fs.length = 3 then
      (xyrCollect rest).map
        (fun pq => (fs.headD 0 :: pq.1, fs.getD 1 0 :: pq.2))
    else none

/-- `TSPBitCity.BOXSIZE` (line 56). -/
def BOXSIZE : ℚ := 800

/-- Width and height reported by a point-file decode (line 240:
`self.width, self.height = int(self.BOXSIZE), int(self.BOXSIZE)`). -/
def xyrBox : Nat := 800

/-- `TSPBitCity.__load_xyr` (tspbitcity.py lines 237-276).  Lines 257-259
compute `fmin = min(min(px), min(py))` and `fmax = max(max(px), max(py))`
(raising `ValueError` on an empty `px`), lines 268-269 the guarded scale,
and lines 272-274 the rounded integer coordinates. -/
def load_xyr (lines : List XyrLine) : List (Int × Int) × Option XyrErr :=
  match xyrCollect lines with
  | none => ([], some .invalidContent)
  | some (px, py) =>
    match px.min?, py.min?, px.max?, py.max? with
    | some mnx, some mny, some mxx, some mxy =>
        let fmin := min mnx mny
        let fmax := max mxx mxy
        let span := fmax - fmin
        let scale : ℚ := if span > 0 then BOXSIZE / span else 1
        ((px.zip py).map
          (fun v => (round ((v.1 - fmin) * scale), round ((v.2 - fmin) * scale))),
         none)
    | _, _, _, _ => ([], some .exnMinEmpty)

/-! ## Renderer counting lemmas

The loop of `write_tspsvg` is analysed in two configurations: an open path
(`path = True`) with `points ≤ m`, and the configuration left behind by a
split (`path = False`, `points = 1`, `first_path = False`).  `openRunPaths`
and `closedRunPaths` give the number of path primitives still to be emitted
from each configuration when `t` further (valid) tour entries remain. -/

def cdiv (a b : Nat) : Nat := (a + b - 1) / b

def closedRunPaths (m t : Nat) : Nat := cdiv t m

def openRunPaths (m p t : Nat) : Nat :=
  if t + p ≤ m then 1 else 1 + closedRunPaths m (t - (m + 1 - p))

theorem cdiv_succ_one (t : Nat) : cdiv (t + 1) 1 = 1 + cdiv t 1 := by
  simp [cdiv]; omega

theorem openRun_at_top (m t : Nat) :
    openRunPaths m m (t + 1) = 1 + closedRunPaths m t := by
  have h1 : ¬(t + 1 + m ≤ m) := by omega
  have h2 : t + 1 - (m + 1 - m) = t := by omega
  simp [openRunPaths, h1, h2]

theorem openRun_step (m p t : Nat) (hp : p < m) :
    openRunPaths m p (t + 1) = openRunPaths m (p + 1) t := by
  unfold openRunPaths
  rcases le_or_lt (t + (p + 1)) m with h | h
  · rw [if_pos (by omega), if_pos (by omega)]
  · rw [if_neg (by omega), if_neg (by omega)]
    congr 2
    omega

theorem closedRun_step (m t : Nat) (hm : 2 ≤ m) :
    closedRunPaths m (t + 1) = openRunPaths m 2 t := by
  have hm0 : 0 < m := by omega
  unfold openRunPaths closedRunPaths cdiv
  rcases le_or_lt (t + 2) m with h | h
  · rw [if_pos h]
    have h1 : t + 1 + m - 1 = t + m := by omega
    rw [h1, Nat.add_div_right _ hm0, Nat.div_eq_of_lt (by omega)]
  · rw [if_neg (by omega)]
    have h1 : t + 1 + m - 1 = t + m := by omega
    have h2 : t - (m + 1 - 2) + m - 1 = t := by omega
    rw [h1, Nat.add_div_right _ hm0, h2]
    omega



/-- The central counting lemma for `write_tspsvg` with a nonzero (adjusted)
segment bound `m`.  From an open-path state with `points ≤ m`, processing
`t` further in-range tour entries emits `openRunPaths m points t` more path
primitives holding `curDeltas.length + t` deltas in total, `Z`-terminated
only when no split ever fires and the path is the first; from a post-split
state, `closedRunPaths m t` more primitives with `t` deltas and no `Z`. -/
theorem svgLoop_run (coords : List (Int × Int)) (height : Int) (m : Nat)
    (hm : 1 ≤ m) :
    ∀ l : List Int, (∀ i ∈ l, 0 ≤ i ∧ i < (coords.length : Int)) →
      (∀ s : RState, s.isPath = true → s.points ≤ m →
        ∃ ps, svgLoop coords height m l s = .ok (s.donePaths ++ ps)
          ∧ ps.length = openRunPaths m s.points l.length
          ∧ deltaCount ps = s.curDeltas.length + l.length
          ∧ zCount ps =
              (if l.length + s.points ≤ m ∧ s.firstPath then 1 else 0))
      ∧ (∀ s : RState, s.isPath = false → s.firstPath = false →
            s.points = 1 →
        ∃ ps, svgLoop coords height m l s = .ok (s.donePaths ++ ps)
          ∧ ps.length = closedRunPaths m l.length
          ∧ deltaCount ps = l.length
          ∧ zCount ps = 0) := by
  intro l
  induction l with
  | nil =>
      intro _
      constructor
      · intro s hs hp
        refine ⟨[⟨s.curStart.1, s.curStart.2, s.curDeltas, s.firstPath⟩],
          ?_, ?_, ?_, ?_⟩
        · simp [svgLoop, finishPaths, hs]
        · simp [openRunPaths, hp]
        · simp [deltaCount]
        · simp only [List.length_nil, Nat.zero_add, hp, true_and, zCount]
          cases hfp : s.firstPath <;> simp [hfp]
      · intro s hs _ _
        refine ⟨[], ?_, ?_, ?_, ?_⟩
        · simp [svgLoop, finishPaths, hs]
        · have h0 : m - 1 < m := by omega
          simp [closedRunPaths, cdiv, Nat.div_eq_of_lt h0]
        · simp [deltaCount]
        · simp [zCount]
  | cons idx rest ih =>
      intro hl
      have hidx := hl idx (List.mem_cons_self _ _)
      have hrest : ∀ i ∈ rest, 0 ≤ i ∧ i < (coords.length : Int) :=
        fun i hi => hl i (List.mem_cons_of_mem _ hi)
      have hguard : ¬(idx < 0 ∨ (coords.length : Int) ≤ idx) := by
        push_neg
        exact ⟨hidx.1, hidx.2⟩
      obtain ⟨ihOpen, ihClosed⟩ := ih hrest
      constructor
      · -- open-path configuration
        intro s hs hp
        have hskip : ¬(s.isPath = false ∧ s.points = 0) := by
          simp [hs]
        rw [svgLoop, if_neg hguard, if_neg hskip]
        simp only [hs, if_true]
        set s2 := moveStep coords idx.toNat s with hs2
        have f2 :
            s2.isPath = s.isPath ∧ s2.firstPath = s.firstPath ∧
            s2.points = s.points + 1 ∧ s2.donePaths = s.donePaths ∧
            s2.curStart = s.curStart ∧
            s2.curDeltas.length = s.curDeltas.length + 1 := by
          simp [hs2, moveStep]
        rcases Nat.lt_or_ge s.points m with hlt | hge
        · -- no split: points + 1 ≤ m
          have hnosplit : ¬(m ≠ 0 ∧ m < s2.points) := by
            rw [f2.2.2.1]
            omega
          rw [if_neg hnosplit]
          obtain ⟨ps, h1, h2, h3, h4⟩ :=
            ihOpen s2 (f2.1.trans hs) (by rw [f2.2.2.1]; omega)
          refine ⟨ps, ?_, ?_, ?_, ?_⟩
          · rw [h1, f2.2.2.2.1]
          · have e1 : openRunPaths m s2.points rest.length
                = openRunPaths m s.points (idx :: rest).length := by
              rw [f2.2.2.1, List.length_cons,
                openRun_step m s.points rest.length hlt]
            rw [h2, e1]
          · have := f2.2.2.2.2.2
            simp only [List.length_cons]
            omega
          · rw [h4]
            refine if_congr (and_congr ?_ ?_) rfl rfl
            · rw [f2.2.2.1]
              simp only [List.length_cons]
              omega
            · rw [f2.2.1]
        · -- split fires: points = m
          have hpm : s.points = m := le_antisymm hp hge
          have hsplit : (m ≠ 0 ∧ m < s2.points) := by
            rw [f2.2.2.1]
            omega
          rw [if_pos hsplit]
          set s3 := splitStep s2 with hs3
          have f3 :
              s3.isPath = false ∧ s3.firstPath = false ∧ s3.points = 1 ∧
              s3.donePaths = s.donePaths ++
                [⟨s.curStart.1, s.curStart.2, s2.curDeltas, false⟩] := by
            refine ⟨?_, ?_, ?_, ?_⟩ <;>
              simp [hs3, splitStep, f2.2.2.2.1, f2.2.2.2.2.1]
          obtain ⟨ps, h1, h2, h3, h4⟩ :=
            ihClosed s3 f3.1 f3.2.1 f3.2.2.1
          refine ⟨⟨s.curStart.1, s.curStart.2, s2.curDeltas, false⟩ :: ps,
            ?_, ?_, ?_, ?_⟩
          · rw [h1, f3.2.2.2]
            simp
          · have e1 : openRunPaths m s.points (rest.length + 1)
                = 1 + closedRunPaths m rest.length := by
              rw [hpm, openRun_at_top]
            simp only [List.length_cons, e1, h2]
            omega
          · simp only [deltaCount, List.map_cons, List.sum_cons]
            simp only [deltaCount] at h3
            have := f2.2.2.2.2.2
            simp only [List.length_cons]
            omega
          · have hc : ¬((idx :: rest).length + s.points ≤ m
                ∧ s.firstPath = true) := by
              rw [hpm]
              simp only [List.length_cons, not_and]
              intro h
              omega
            rw [if_neg hc]
            simp only [zCount, List.filter] at h4 ⊢
            simpa using h4
      · -- post-split configuration
        intro s hs hfp hp1
        have hskip : ¬(s.isPath = false ∧ s.points = 0) := by
          simp [hs, hp1]
        rw [svgLoop, if_neg hguard, if_neg hskip]
        simp only [hs, Bool.false_eq_true, if_false]
        set s1 := openPath coords height idx.toNat s with hs1
        have f1 :
            s1.isPath = true ∧ s1.firstPath = s.firstPath ∧
            s1.points = s.points ∧ s1.donePaths = s.donePaths ∧
            s1.curDeltas = [] := by
          simp [hs1, openPath]
        set s2 := moveStep coords idx.toNat s1 with hs2
        have f2 :
            s2.isPath = s1.isPath ∧ s2.firstPath = s1.firstPath ∧
            s2.points = s1.points + 1 ∧ s2.donePaths = s1.donePaths ∧
            s2.curStart = s1.curStart ∧
            s2.curDeltas.length = s1.curDeltas.length + 1 := by
          simp [hs2, moveStep]
        have hpts2 : s2.points = 2 := by
          rw [f2.2.2.1, f1.2.2.1, hp1]
        rcases Nat.lt_or_ge m 2 with hm1 | hm2
        · -- m = 1: immediate split
          have hmeq : m = 1 := by omega
          have hsplit : (m ≠ 0 ∧ m < s2.points) := by
            rw [hpts2]; omega
          rw [if_pos hsplit]
          set s3 := splitStep s2 with hs3
          have f3 :
              s3.isPath = false ∧ s3.firstPath = false ∧ s3.points = 1 ∧
              s3.donePaths = s.donePaths ++
                [⟨s2.curStart.1, s2.curStart.2, s2.curDeltas, false⟩] := by
            refine ⟨?_, ?_, ?_, ?_⟩ <;>
              simp [hs3, splitStep, f2.2.2.2.1, f1.2.2.2.1]
          obtain ⟨ps, h1, h2, h3, h4⟩ :=
            ihClosed s3 f3.1 f3.2.1 f3.2.2.1
          refine ⟨⟨s2.curStart.1, s2.curStart.2, s2.curDeltas, false⟩ :: ps,
            ?_, ?_, ?_, ?_⟩
          · rw [h1, f3.2.2.2]
            simp
          · have e1 : closedRunPaths m (rest.length + 1)
                = 1 + closedRunPaths m rest.length := by
              simp only [hmeq, closedRunPaths]
              exact cdiv_succ_one rest.length
            simp only [List.length_cons, e1, h2]
            omega
          · simp only [deltaCount, List.map_cons, List.sum_cons]
            simp only [deltaCount] at h3
            have e6 : s2.curDeltas.length = 1 := by
              rw [f2.2.2.2.2.2, f1.2.2.2.2]
              rfl
            simp only [List.length_cons]
            omega
          · simp only [zCount, List.filter] at h4 ⊢
            simpa using h4
        · -- m ≥ 2: continue inside the freshly opened path
          have hnosplit : ¬(m ≠ 0 ∧ m < s2.points) := by
            rw [hpts2]; omega
          rw [if_neg hnosplit]
          obtain ⟨ps, h1, h2, h3, h4⟩ :=
            ihOpen s2 (f2.1.trans f1.1) (by rw [hpts2]; omega)
          refine ⟨ps, ?_, ?_, ?_, ?_⟩
          · rw [h1, f2.2.2.2.1, f1.2.2.2.1]
          · have e1 : closedRunPaths m (idx :: rest).length
                = openRunPaths m 2 rest.length := by
              rw [List.length_cons, closedRun_step m rest.length hm2]
            rw [h2, hpts2, e1]
          · have e6 : s2.curDeltas.length = 1 := by
              rw [f2.2.2.2.2.2, f1.2.2.2.2]
              rfl
            simp only [List.length_cons]
            omega
          · rw [h4, f2.2.1, f1.2.1, hfp]
            simp

/-- With `max_segments = 0` (no adjusted bound), an open path is never split:
the run extends the current path by one delta per remaining tour entry. -/
theorem svgLoop_run0 (coords : List (Int × Int)) (height : Int) :
    ∀ l : List Int, (∀ i ∈ l, 0 ≤ i ∧ i < (coords.length : Int)) →
      ∀ s : RState, s.isPath = true →
        ∃ ds : List (Int × Int),
          svgLoop coords height 0 l s =
            .ok (s.donePaths ++
              [⟨s.curStart.1, s.curStart.2, s.curDeltas ++ ds, s.firstPath⟩])
          ∧ ds.length = l.length := by
  intro l
  induction l with
  | nil =>
      intro _ s hs
      refine ⟨[], ?_, rfl⟩
      simp [svgLoop, finishPaths, hs]
  | cons idx rest ih =>
      intro hl s hs
      have hidx := hl idx (List.mem_cons_self _ _)
      have hguard : ¬(idx < 0 ∨ (coords.length : Int) ≤ idx) := by
        push_neg
        exact ⟨hidx.1, hidx.2⟩
      have hskip : ¬(s.isPath = false ∧ s.points = 0) := by
        simp [hs]
      rw [svgLoop, if_neg hguard, if_neg hskip]
      simp only [hs, if_true]
      set s2 := moveStep coords idx.toNat s with hs2
      have hnosplit : ¬((0 : Nat) ≠ 0 ∧ 0 < s2.points) := by
        simp
      rw [if_neg hnosplit]
      obtain ⟨ds, h1, h2⟩ :=
        ih (fun i hi => hl i (List.mem_cons_of_mem _ hi)) s2
          (by simp [hs2, moveStep, hs])
      refine ⟨((coords.getD idx.toNat (0, 0)).1 - (s.lastCity.getD (0, 0)).1,
          -((coords.getD idx.toNat (0, 0)).2 - (s.lastCity.getD (0, 0)).2))
          :: ds, ?_, ?_⟩
      · rw [h1]
        simp [hs2, moveStep]
      · simp [h2]

theorem openRun_formula (k n : Nat) (hn : 2 ≤ n) (hk : 1 ≤ k) :
    openRunPaths (k + 1) 0 (n - 1) = 1 + (n - 3) / (k + 1) := by
  unfold openRunPaths closedRunPaths cdiv
  rcases le_or_lt (n - 1 + 0) (k + 1) with h | h
  · rw [if_pos h]
    have h3 : n - 3 < k + 1 := by omega
    rw [Nat.div_eq_of_lt h3]
  · rw [if_neg (by omega)]
    have e : n - 1 - (k + 1 + 1 - 0) + (k + 1) - 1 = n - 3 := by omega
    rw [e]

/-- Structure of the identity tour. -/
theorem idTour_succ (n : Nat) :
    idTour (n + 1) =
      (0 : Int) :: (List.range n).map (fun i => ((i + 1 : Nat) : Int)) := by
  rw [idTour, List.range_succ_eq_map, List.map_cons, List.map_map]
  rfl

theorem idTour_tail_valid (coords : List (Int × Int)) (n : Nat)
    (hlen : coords.length = n + 1) :
    ∀ i ∈ (List.range n).map (fun j => ((j + 1 : Nat) : Int)),
      0 ≤ i ∧ i < (coords.length : Int) := by
  intro i hi
  rw [List.mem_map] at hi
  obtain ⟨j, hj, rfl⟩ := hi
  rw [List.mem_range] at hj
  rw [hlen]
  constructor
  · positivity
  · exact_mod_cast Nat.succ_lt_succ hj

/-- The first entry of the identity tour only opens the first path, anchored
at city 0 (`points == 0` takes the `continue` of source line 487-489). -/
theorem svgLoop_first (coords : List (Int × Int)) (height : Int) (m n : Nat)
    (hlen : coords.length = n + 1) :
    svgLoop coords height m (idTour (n + 1))
      { lastCity := none, isPath := false, firstPath := true, points := 0,
        donePaths := [], curStart := (0, 0), curDeltas := [] } =
    svgLoop coords height m
      ((List.range n).map (fun i => ((i + 1 : Nat) : Int)))
      { lastCity := some (coords.getD 0 (0, 0)), isPath := true,
        firstPath := true, points := 0, donePaths := [],
        curStart := ((coords.getD 0 (0, 0)).1,
          height - (coords.getD 0 (0, 0)).2),
        curDeltas := [] } := by
  rw [idTour_succ, svgLoop]
  rw [if_neg (by rw [hlen]; push_neg; constructor <;> omega)]
  rw [if_pos ⟨rfl, rfl⟩]
  rfl

/-! ## Claims C1 and C2: path and delta counts of `write_tspsvg` -/

/-- Claim C1 (as frozen) is false on the code: for `n = 4` cities, the
identity tour and `maxSegments = k = 2` (so `0 < k < n - 1`), the claim
predicts `ceil((n-1)/k) = 2` path primitives, none closed with `Z`; the
renderer actually emits a single path primitive closed with `Z` (the split
condition `points > max_segments + 1` never fires because `n - 1 ≤ k + 1`). -/
theorem c1_counterexample :
    ¬(pathCount (okPaths
        (write_tspsvg [(0, 0), (1, 0), (2, 0), (3, 0)] 4 2 (idTour 4))) = 2
      ∧ zCount (okPaths
        (write_tspsvg [(0, 0), (1, 0), (2, 0), (3, 0)] 4 2 (idTour 4))) = 0) := by
  decide

/-- Claim C1 (amended): for a registry of `n ≥ 2` cities, the identity tour
and a bound `0 < k < n - 1`, rendering succeeds and emits exactly
`1 + floor((n-3)/(k+1))` path primitives; the relative line-to deltas
written across all paths sum to exactly `n - 1`; and a `Z` loop marker
appears on (the unique) path exactly when `n ≤ k + 2`, i.e. when
`k = n - 2`, otherwise on none.  (The source pre-increments `max_segments`
and resets the per-path counter to 1 after a split, so the first path
carries up to `k + 2` deltas and later paths `k + 1` each -- not `k`.) -/
theorem c1_amended_render_counts (coords : List (Int × Int)) (height : Int)
    (n k : Nat) (hlen : coords.length = n) (hn : 2 ≤ n) (hk : 1 ≤ k)
    (hkn : k < n - 1) :
    ∃ ps, write_tspsvg coords height k (idTour n) = .ok ps
      ∧ pathCount ps = 1 + (n - 3) / (k + 1)
      ∧ deltaCount ps = n - 1
      ∧ zCount ps = (if n ≤ k + 2 then 1 else 0) := by
  obtain ⟨n', rfl⟩ : ∃ n', n = n' + 1 := ⟨n - 1, by omega⟩
  have hm : (if k ≠ 0 then k + 1 else 0) = k + 1 := if_pos (by omega)
  have hw : write_tspsvg coords height k (idTour (n' + 1)) =
      svgLoop coords height (if k ≠ 0 then k + 1 else 0) (idTour (n' + 1))
        { lastCity := none, isPath := false, firstPath := true, points := 0,
          donePaths := [], curStart := (0, 0), curDeltas := [] } := rfl
  rw [hw, hm, svgLoop_first coords height (k + 1) n' hlen]
  obtain ⟨ps, h1, h2, h3, h4⟩ :=
    ((svgLoop_run coords height (k + 1) (by omega) _
        (idTour_tail_valid coords n' hlen)).1)
      { lastCity := some (coords.getD 0 (0, 0)), isPath := true,
        firstPath := true, points := 0, donePaths := [],
        curStart := ((coords.getD 0 (0, 0)).1,
          height - (coords.getD 0 (0, 0)).2),
        curDeltas := [] } rfl (by exact Nat.zero_le _)
  rw [List.nil_append] at h1
  refine ⟨ps, h1, ?_, ?_, ?_⟩
  · rw [pathCount, h2]
    dsimp only
    simp only [List.length_map, List.length_range]
    have hf := openRun_formula k (n' + 1) hn hk
    simpa using hf
  · rw [h3]
    dsimp only
    simp only [List.length_nil, List.length_map, List.length_range]
    omega
  · rw [h4]
    dsimp only
    refine if_congr ?_ rfl rfl
    simp only [List.length_map, List.length_range, eq_self_iff_true, and_true]
    omega

/-- Witness for the amended claim C1 at `n = 6`, `k = 1`: two path
primitives, five deltas, no `Z`. -/
theorem c1_witness :
    ∃ ps, write_tspsvg [(0, 0), (1, 0), (2, 0), (3, 0), (4, 0), (5, 0)] 6 1
        (idTour 6) = .ok ps
      ∧ pathCount ps = 1 + (6 - 3) / (1 + 1)
      ∧ deltaCount ps = 6 - 1
      ∧ zCount ps = (if 6 ≤ 1 + 2 then 1 else 0) :=
  c1_amended_render_counts [(0, 0), (1, 0), (2, 0), (3, 0), (4, 0), (5, 0)] 6
    6 1 rfl (by decide) (by decide) (by decide)

/-- Claim C2 (as frozen) is false on the code: for `n = 2` cities, the
identity tour and `maxSegments = 0`, the claim predicts `n = 2` relative
delta segments, but the first tour entry only anchors the path (`points == 0`
takes the `continue` at source line 487-489), so exactly `n - 1 = 1` delta
is written. -/
theorem c2_counterexample :
    ¬(deltaCount (okPaths
        (write_tspsvg [(0, 0), (1, 1)] 2 0 (idTour 2))) = 2) := by
  decide

/-- Claim C2 (amended): for a registry of `n ≥ 1` cities and the identity
tour, rendering with `maxSegments = 0` succeeds and emits exactly one path
primitive, closed with the explicit `Z` loop marker, containing exactly
`n - 1` written relative delta segments (the `Z` marker itself closes the
loop back to the start point, the geometric `n`-th segment). -/
theorem c2_amended_single_path (coords : List (Int × Int)) (height : Int)
    (n : Nat) (hlen : coords.length = n) (hn : 1 ≤ n) :
    ∃ ps, write_tspsvg coords height 0 (idTour n) = .ok ps
      ∧ pathCount ps = 1
      ∧ deltaCount ps = n - 1
      ∧ zCount ps = 1 := by
  obtain ⟨n', rfl⟩ : ∃ n', n = n' + 1 := ⟨n - 1, by omega⟩
  have hw : write_tspsvg coords height 0 (idTour (n' + 1)) =
      svgLoop coords height 0 (idTour (n' + 1))
        { lastCity := none, isPath := false, firstPath := true, points := 0,
          donePaths := [], curStart := (0, 0), curDeltas := [] } := rfl
  rw [hw, svgLoop_first coords height 0 n' hlen]
  obtain ⟨ds, h1, h2⟩ :=
    svgLoop_run0 coords height _ (idTour_tail_valid coords n' hlen)
      { lastCity := some (coords.getD 0 (0, 0)), isPath := true,
        firstPath := true, points := 0, donePaths := [],
        curStart := ((coords.getD 0 (0, 0)).1,
          height - (coords.getD 0 (0, 0)).2),
        curDeltas := [] } rfl
  rw [List.nil_append] at h1
  refine ⟨_, h1, rfl, ?_, rfl⟩
  rw [deltaCount]
  simp only [List.map_cons, List.map_nil, List.sum_cons, List.sum_nil,
    List.nil_append, List.length_map, List.length_range] at h2 ⊢
  omega

/-- Witness for the amended claim C2 at `n = 2`. -/
theorem c2_witness :
    ∃ ps, write_tspsvg [(0, 0), (1, 1)] 2 0 (idTour 2) = .ok ps
      ∧ pathCount ps = 1
      ∧ deltaCount ps = 2 - 1
      ∧ zCount ps = 1 :=
  c2_amended_single_path [(0, 0), (1, 1)] 2 2 rfl (by decide)

/-! ## Claim C4: invalid tour indices abort the render and remove the file -/

/-- The first tour entry that is not a valid city index, if any. -/
def firstBad (n : Nat) : List Int → Option Int
  | [] => none
  | i :: rest => if i < 0 ∨ (n : Int) ≤ i then some i else firstBad n rest

theorem firstBad_of_mem (n : Nat) :
    ∀ l : List Int, (∃ i ∈ l, i < 0 ∨ (n : Int) ≤ i) →
      ∃ e, firstBad n l = some e := by
  intro l
  induction l with
  | nil =>
      rintro ⟨i, hi, _⟩
      exact absurd hi (List.not_mem_nil i)
  | cons idx rest ih =>
      rintro ⟨i, hi, hbad⟩
      by_cases hb : idx < 0 ∨ (n : Int) ≤ idx
      · exact ⟨idx, by rw [firstBad, if_pos hb]⟩
      · rcases List.mem_cons.mp hi with rfl | hmem
        · exact absurd hbad hb
        · obtain ⟨e, he⟩ := ih ⟨i, hmem, hbad⟩
          exact ⟨e, by rw [firstBad, if_neg hb, he]⟩

/-- Processing a tour whose first invalid entry is `e` aborts with
`InvalidTourIndex e` from any loop state: every earlier (valid) entry takes
one of the three continuing branches, and the guard at source line 471 fires
at `e` before anything of the current iteration is written. -/
theorem svgLoop_firstBad (coords : List (Int × Int)) (height : Int) (m : Nat) :
    ∀ (l : List Int) (e : Int), firstBad coords.length l = some e →
      ∀ s : RState,
        svgLoop coords height m l s = .error (.invalidTourIndex e) := by
  intro l
  induction l with
  | nil =>
      intro e he s
      simp [firstBad] at he
  | cons idx rest ih =>
      intro e he s
      rw [firstBad] at he
      by_cases hb : idx < 0 ∨ (coords.length : Int) ≤ idx
      · rw [if_pos hb] at he
        injection he with he2
        subst he2
        rw [svgLoop, if_pos hb]
      · rw [if_neg hb] at he
        rw [svgLoop, if_neg hb]
        by_cases hskip : (s.isPath = false ∧ s.points = 0)
        · rw [if_pos hskip]
          exact ih e he _
        · rw [if_neg hskip]
          dsimp only
          split <;> split <;> exact ih e he _

/-- Claim C4: a tour containing an entry outside `[0, cityCount)` makes
`write_tspsvg` fail with `InvalidTourIndex` carrying the first such entry,
and the destination file is removed (`svgFile = none`): the caller never
observes a partially written drawing. -/
theorem c4_invalid_tour_aborts (coords : List (Int × Int)) (height : Int)
    (max_segments : Nat) (tour : List Int)
    (hbad : ∃ i ∈ tour, i < 0 ∨ (coords.length : Int) ≤ i) :
    ∃ e, firstBad coords.length tour = some e
      ∧ write_tspsvg coords height max_segments tour =
          .error (.invalidTourIndex e)
      ∧ svgFile (write_tspsvg coords height max_segments tour) = none := by
  obtain ⟨e, he⟩ := firstBad_of_mem coords.length tour hbad
  have hrun : write_tspsvg coords height max_segments tour =
      .error (.invalidTourIndex e) :=
    svgLoop_firstBad coords height _ tour e he _
  exact ⟨e, he, hrun, by rw [svgFile, hrun]; rfl⟩

/-- Witness for claim C4: the tour `[0, 5]` over two cities fails at entry
`5` and leaves no file. -/
theorem c4_witness :
    ∃ e, firstBad (List.length [((0 : Int), (0 : Int)), (1, 1)]) [0, 5] = some e
      ∧ write_tspsvg [(0, 0), (1, 1)] 2 400 [0, 5] =
          .error (.invalidTourIndex e)
      ∧ svgFile (write_tspsvg [(0, 0), (1, 1)] 2 400 [0, 5]) = none :=
  c4_invalid_tour_aborts [(0, 0), (1, 1)] 2 400 [0, 5] (by decide)

/-! ## Registry invariants of the packed decoder -/

/-- The registry ordering invariant (spec section 3): strictly decreasing
y across rows, strictly increasing x within a row. -/
def cityOrd (a b : Int × Int) : Prop := b.2 < a.2 ∨ (a.2 = b.2 ∧ a.1 < b.1)

instance : DecidableRel cityOrd := fun a b => by
  unfold cityOrd
  infer_instance

theorem p4_shape_step (row : Int) (col n : Nat) (acc tail : List (Int × Int))
    (hacc : acc = [] ∨ acc = [((col : Int), row)])
    (htailP : tail.Pairwise (fun a c => a.1 < c.1))
    (htail : ∀ c ∈ tail, c.2 = row ∧ ((col + 1 : Nat) : Int) ≤ c.1
        ∧ c.1 < ((col + 1 : Nat) : Int) + (n : Int)) :
    ((acc ++ tail).Pairwise (fun a c => a.1 < c.1))
    ∧ ∀ c ∈ acc ++ tail,
        c.2 = row ∧ (col : Int) ≤ c.1
          ∧ c.1 < (col : Int) + ((n + 1 : Nat) : Int) := by
  constructor
  · rcases hacc with rfl | rfl
    · simpa using htailP
    · rw [List.singleton_append, List.pairwise_cons]
      refine ⟨fun c hc => ?_, htailP⟩
      have h2 := (htail c hc).2.1
      push_cast at h2 ⊢
      omega
  · intro c hc
    rcases List.mem_append.mp hc with hin | hin
    · rcases hacc with rfl | rfl
      · simp at hin
      · rw [List.mem_singleton] at hin
        subst hin
        refine ⟨rfl, le_refl _, ?_⟩
        push_cast
        omega
    · obtain ⟨h1, h2, h3⟩ := htail c hin
      refine ⟨h1, ?_, ?_⟩ <;> push_cast at h2 h3 ⊢ <;> omega

/-- Whatever the byte data, the cities appended while scanning one packed
row all carry that row's y, have x in `[col, width)` in strictly increasing
order -- even if the scan aborts midway. -/
theorem p4Cols_shape (w nbytes : Nat) (rowBytes : List Nat) (row : Int) :
    ∀ n col bIdx b mask,
      ((p4Cols w nbytes rowBytes row n col bIdx b mask).1.Pairwise
          (fun a c => a.1 < c.1))
      ∧ ∀ c ∈ (p4Cols w nbytes rowBytes row n col bIdx b mask).1,
          c.2 = row ∧ (col : Int) ≤ c.1 ∧ c.1 < (col : Int) + (n : Int) := by
  intro n
  induction n with
  | zero =>
      intro col bIdx b mask
      simp [p4Cols]
  | succ n ih =>
      intro col bIdx b mask
      rw [p4Cols]
      dsimp only
      have hacc : (if mask &&& b ≠ 0 then [((col : Int), row)] else [])
          = [] ∨ (if mask &&& b ≠ 0 then [((col : Int), row)] else [])
          = [((col : Int), row)] := by
        by_cases hb : mask &&& b ≠ 0 <;> simp [hb]
      split
      · split
        · split
          · exact p4_shape_step row col n _ _ hacc
              (ih (col + 1) (bIdx + 1) _ 128).1 (ih (col + 1) (bIdx + 1) _ 128).2
          · simpa using p4_shape_step row col n _ [] hacc
              List.Pairwise.nil (by simp)
        · split
          · simpa using p4_shape_step row col n _ [] hacc
              List.Pairwise.nil (by simp)
          · exact p4_shape_step row col n _ _ hacc
              (ih (col + 1) (bIdx + 1) b 0).1 (ih (col + 1) (bIdx + 1) b 0).2
      · exact p4_shape_step row col n _ _ hacc
          (ih (col + 1) bIdx b _).1 (ih (col + 1) bIdx b _).2

/-- Rows are scanned top (y = rowsLeft - 1) to bottom; the accumulated
registry -- partial or complete -- is in bounds and `cityOrd`-sorted. -/
theorem p4Rows_shape (w nbytes : Nat) :
    ∀ rowsLeft stream,
      ((p4Rows w nbytes rowsLeft stream).1.Pairwise cityOrd)
      ∧ ∀ c ∈ (p4Rows w nbytes rowsLeft stream).1,
          0 ≤ c.1 ∧ c.1 < (w : Int) ∧ 0 ≤ c.2 ∧ c.2 < (rowsLeft : Int) := by
  intro rowsLeft
  induction rowsLeft with
  | zero =>
      intro stream
      simp [p4Rows]
  | succ r ih =>
      intro stream
      rw [p4Rows]
      dsimp only
      split
      · simp
      · have hcolsP := (p4Cols_shape w nbytes (stream.take nbytes) (r : Int)
          w 0 0 (List.headD (stream.take nbytes) 0) 128).1
        have hcolsM := (p4Cols_shape w nbytes (stream.take nbytes) (r : Int)
          w 0 0 (List.headD (stream.take nbytes) 0) 128).2
        have hrowP : (p4Cols w nbytes (stream.take nbytes) (r : Int)
            w 0 0 (List.headD (stream.take nbytes) 0) 128).1.Pairwise
            cityOrd :=
          hcolsP.imp_of_mem (fun ha hb hr =>
            Or.inr ⟨((hcolsM _ ha).1).trans ((hcolsM _ hb).1).symm, hr⟩)
        have hrowM : ∀ c ∈ (p4Cols w nbytes (stream.take nbytes) (r : Int)
            w 0 0 (List.headD (stream.take nbytes) 0) 128).1,
            0 ≤ c.1 ∧ c.1 < (w : Int) ∧ 0 ≤ c.2 ∧ c.2 < ((r + 1 : Nat) : Int) := by
          intro c hc
          obtain ⟨h1, h2, h3⟩ := hcolsM c hc
          refine ⟨by simpa using h2, by simpa using h3, by omega, ?_⟩
          push_cast
          omega
        split
        · exact ⟨hrowP, hrowM⟩
        · constructor
          · rw [List.pairwise_append]
            refine ⟨hrowP, (ih (stream.drop nbytes)).1, ?_⟩
            intro a ha b hb
            have hay := (hcolsM a ha).1
            have hby := ((ih (stream.drop nbytes)).2 b hb).2.2.2
            exact Or.inl (by omega)
          · intro c hc
            rcases List.mem_append.mp hc with hin | hin
            · exact hrowM c hin
            · obtain ⟨h1, h2, h3, h4⟩ := (ih (stream.drop nbytes)).2 c hin
              refine ⟨h1, h2, h3, ?_⟩
              push_cast
              omega

/-- `__load_pbm_p4` registry invariants: every city (also of a partial,
failed decode) satisfies `0 ≤ x < width`, `0 ≤ y < height`, and the list is
sorted by strictly decreasing y, strictly increasing x within a row. -/
theorem load_pbm_p4_shape (w h : Nat) (stream : List Nat) :
    ((load_pbm_p4 w h stream).1.Pairwise cityOrd)
    ∧ ∀ c ∈ (load_pbm_p4 w h stream).1,
        0 ≤ c.1 ∧ c.1 < (w : Int) ∧ 0 ≤ c.2 ∧ c.2 < (h : Int) := by
  rw [load_pbm_p4]
  split
  · simp
  · exact p4Rows_shape w ((w + 7) / 8) h stream

/-! ## Registry invariants of the text decoder

The cursor `(column, row)` of `__load_pbm_p1` advances by exactly one unit
of the scan key `x - y * width` per consumed pixel character; each appended
city carries the key of the cursor position at the moment of appending, so
the appended keys are strictly increasing. -/

def scanKey (w : Nat) (x y : Int) : Int := x - y * w

theorem scanKey_step (w : Nat) (col : Nat) (row : Int) (hcol : col < w) :
    scanKey w
      (((if col + 1 ≥ w then ((0 : Nat), row - 1)
          else (col + 1, row)).1 : Nat) : Int)
      (if col + 1 ≥ w then ((0 : Nat), row - 1) else (col + 1, row)).2
      = scanKey w (col : Int) row + 1 := by
  unfold scanKey
  split
  · rename_i hwrap
    dsimp only
    have hcw : (col : Int) + 1 = (w : Int) := by
      omega
    push_cast
    linarith [hcw]
  · rename_i hnow
    dsimp only
    push_cast
    ring

/-- Invariants of the inner character loop of `__load_pbm_p1`: the final
column stays below the width, the row never increases, the cursor key
advances by the number of consumed characters (all of them when no error
occurs), and the appended cities have strictly increasing keys lying in the
key interval swept by the cursor, with in-range x and y at most the
starting row. -/
theorem p1Chars_shape (w : Nat) (hw : 1 ≤ w) :
    ∀ (l : List Char) (col : Nat) (row : Int), col < w →
      ((p1Chars w l col row).2.1 < w)
      ∧ ((p1Chars w l col row).2.2.1 ≤ row)
      ∧ (∃ nc : Nat, nc ≤ l.length
          ∧ ((p1Chars w l col row).2.2.2 = none → nc = l.length)
          ∧ scanKey w (((p1Chars w l col row).2.1 : Nat) : Int)
              (p1Chars w l col row).2.2.1
            = scanKey w (col : Int) row + nc)
      ∧ ((p1Chars w l col row).1.Pairwise
          (fun a b => scanKey w a.1 a.2 < scanKey w b.1 b.2))
      ∧ ∀ c ∈ (p1Chars w l col row).1,
          0 ≤ c.1 ∧ c.1 < (w : Int) ∧ c.2 ≤ row
          ∧ scanKey w (col : Int) row ≤ scanKey w c.1 c.2
          ∧ scanKey w c.1 c.2
              < scanKey w (((p1Chars w l col row).2.1 : Nat) : Int)
                  (p1Chars w l col row).2.2.1 := by
  intro l
  induction l with
  | nil =>
      intro col row hcol
      refine ⟨hcol, le_refl _, ⟨0, ?_, ?_, by simp [p1Chars]⟩, ?_, ?_⟩ <;>
        simp [p1Chars]
  | cons c rest ih =>
      intro col row hcol
      by_cases hcv : c = '1' ∨ c = '0'
      · rw [p1Chars, if_pos hcv]
        dsimp only
        have hst1 : (if col + 1 ≥ w then ((0 : Nat), row - 1)
            else (col + 1, row)).1 < w := by
          split <;> omega
        have hst2 : (if col + 1 ≥ w then ((0 : Nat), row - 1)
            else (col + 1, row)).2 ≤ row := by
          split <;> dsimp only <;> omega
        have hkey := scanKey_step w col row hcol
        obtain ⟨ih1, ih2, ⟨nc, hnc1, hnc2, hnc3⟩, ih4, ih5⟩ :=
          ih (if col + 1 ≥ w then ((0 : Nat), row - 1) else (col + 1, row)).1
            (if col + 1 ≥ w then ((0 : Nat), row - 1) else (col + 1, row)).2
            hst1
        refine ⟨ih1, le_trans ih2 hst2, ⟨nc + 1, ?_, ?_, ?_⟩, ?_, ?_⟩
        · simpa using Nat.succ_le_succ hnc1
        · intro hnone
          rw [List.length_cons, hnc2 hnone]
        · rw [hnc3, hkey]
          push_cast
          ring
        · -- pairwise of acc ++ rec
          have htail : ∀ p ∈ (p1Chars w rest
              (if col + 1 ≥ w then ((0 : Nat), row - 1)
                else (col + 1, row)).1
              (if col + 1 ≥ w then ((0 : Nat), row - 1)
                else (col + 1, row)).2).1,
              scanKey w (col : Int) row < scanKey w p.1 p.2 := by
            intro p hp
            have := (ih5 p hp).2.2.2.1
            omega
          by_cases hc1 : c = '1'
          · rw [if_pos hc1, List.singleton_append, List.pairwise_cons]
            exact ⟨fun p hp => htail p hp, ih4⟩
          · rw [if_neg hc1, List.nil_append]
            exact ih4
        · intro p hp
          have hsplit : p ∈ (if c = '1'
              then [((col : Int), row)] else ([] : List (Int × Int)))
              ∨ p ∈ (p1Chars w rest
                (if col + 1 ≥ w then ((0 : Nat), row - 1)
                  else (col + 1, row)).1
                (if col + 1 ≥ w then ((0 : Nat), row - 1)
                  else (col + 1, row)).2).1 :=
            List.mem_append.mp hp
          rcases hsplit with hin | hin
          · have hpc : p = ((col : Int), row) := by
              by_cases hc1 : c = '1'
              · rw [if_pos hc1, List.mem_singleton] at hin
                exact hin
              · rw [if_neg hc1] at hin
                exact absurd hin (List.not_mem_nil p)
            subst hpc
            dsimp only
            refine ⟨by positivity, by exact_mod_cast hcol, le_refl _,
              le_refl _, ?_⟩
            rw [hnc3, hkey]
            omega
          · obtain ⟨h1, h2, h3, h4, h5⟩ := ih5 p hin
            refine ⟨h1, h2, le_trans h3 hst2, ?_, h5⟩
            omega
      · rw [p1Chars, if_neg hcv]
        refine ⟨hcol, le_refl _, ⟨0, by simp, by simp, by simp⟩, ?_, ?_⟩ <;>
          simp

/-- Strictly increasing scan keys of in-range cities give the registry
order: y strictly decreases, or y is equal and x strictly increases. -/
theorem scanKey_lt_cityOrd (w : Nat) (a b : Int × Int)
    (ha1 : 0 ≤ a.1) (hb2 : b.1 < (w : Int))
    (hk : scanKey w a.1 a.2 < scanKey w b.1 b.2) : cityOrd a b := by
  unfold scanKey at hk
  unfold cityOrd
  rcases lt_trichotomy a.2 b.2 with h | h | h
  · exfalso
    have h1 : (a.2 + 1) * (w : Int) ≤ b.2 * w :=
      mul_le_mul_of_nonneg_right (by omega) (by positivity)
    have h2 : (a.2 + 1) * (w : Int) = a.2 * w + w := by ring
    linarith
  · refine Or.inr ⟨h, ?_⟩
    rw [h] at hk
    linarith
  · exact Or.inl h

/-- Invariants of the line loop of `__load_pbm_p1`: the cursor key never
decreases across lines, and every appended city (also of an aborted run)
is in x-range, no higher than the starting row, and has its scan key inside
the swept interval, all keys strictly increasing. -/
theorem p1Lines_shape (w : Nat) (hw : 1 ≤ w) :
    ∀ (lines : List (List Char)) (col : Nat) (row : Int), col < w →
      ((p1Lines w lines col row).2.1 < w)
      ∧ ((p1Lines w lines col row).2.2.1 ≤ row)
      ∧ (scanKey w (col : Int) row
          ≤ scanKey w (((p1Lines w lines col row).2.1 : Nat) : Int)
              (p1Lines w lines col row).2.2.1)
      ∧ ((p1Lines w lines col row).1.Pairwise
          (fun a b => scanKey w a.1 a.2 < scanKey w b.1 b.2))
      ∧ ∀ c ∈ (p1Lines w lines col row).1,
          0 ≤ c.1 ∧ c.1 < (w : Int) ∧ c.2 ≤ row
          ∧ scanKey w (col : Int) row ≤ scanKey w c.1 c.2
          ∧ scanKey w c.1 c.2
              < scanKey w (((p1Lines w lines col row).2.1 : Nat) : Int)
                  (p1Lines w lines col row).2.2.1 := by
  intro lines
  induction lines with
  | nil =>
      intro col row hcol
      refine ⟨hcol, le_refl _, le_refl _, ?_, ?_⟩ <;> simp [p1Lines]
  | cons line rest ih =>
      intro col row hcol
      rw [p1Lines]
      split
      · exact ih col row hcol
      · split
        · exact ⟨hcol, le_refl _, le_refl _, by simp, by simp⟩
        · dsimp only
          obtain ⟨hc1, hc2, ⟨nc, _, _, hc3⟩, hc4, hc5⟩ :=
            p1Chars_shape w hw (pyStrip line) col row hcol
          split
          · exact ⟨hc1, hc2, by rw [hc3]; omega, hc4, fun c hc =>
              ⟨(hc5 c hc).1, (hc5 c hc).2.1, (hc5 c hc).2.2.1,
                (hc5 c hc).2.2.2.1, (hc5 c hc).2.2.2.2⟩⟩
          · obtain ⟨ih1, ih2, ih3, ih4, ih5⟩ :=
              ih (p1Chars w (pyStrip line) col row).2.1
                (p1Chars w (pyStrip line) col row).2.2.1 hc1
            have hkmid : scanKey w (col : Int) row
                ≤ scanKey w
                    (((p1Chars w (pyStrip line) col row).2.1 : Nat) : Int)
                    (p1Chars w (pyStrip line) col row).2.2.1 := by
              rw [hc3]
              omega
            refine ⟨ih1, le_trans ih2 hc2, le_trans hkmid ih3, ?_, ?_⟩
            · rw [List.pairwise_append]
              refine ⟨hc4, ih4, ?_⟩
              intro a hamem b hbmem
              have h5 := (hc5 a hamem).2.2.2.2
              have h6 := (ih5 b hbmem).2.2.2.1
              omega
            · intro c hc
              rcases List.mem_append.mp hc with hin | hin
              · obtain ⟨h1, h2, h3, h4, h5⟩ := hc5 c hin
                exact ⟨h1, h2, h3, h4, lt_of_lt_of_le h5 ih3⟩
              · obtain ⟨h1, h2, h3, h4, h5⟩ := ih5 c hin
                exact ⟨h1, h2, le_trans h3 hc2, le_trans hkmid h4, h5⟩

/-- The registry built by `__load_pbm_p1` is `cityOrd`-sorted, whether the
decode succeeds or not. -/
theorem load_pbm_p1_sorted (w h : Nat) (lines : List (List Char)) :
    (load_pbm_p1 w h lines).1.Pairwise cityOrd := by
  rw [load_pbm_p1]
  split
  · simp
  · rename_i hwh
    have hw : 1 ≤ w := by
      rcases Nat.eq_zero_or_pos w with h0 | h1
      · exact absurd (Or.inl h0) hwh
      · exact h1
    obtain ⟨_, _, _, hP, hM⟩ :=
      p1Lines_shape w hw lines 0 ((h : Int) - 1) (by omega)
    have sorted : (p1Lines w lines 0 ((h : Int) - 1)).1.Pairwise cityOrd :=
      hP.imp_of_mem (fun ha hb hk =>
        scanKey_lt_cityOrd w _ _ (hM _ ha).1 (hM _ hb).2.1 hk)
    dsimp only
    split
    · exact sorted
    · split
      · exact sorted
      · exact sorted

/-- On a successful `__load_pbm_p1` decode the final cursor sits at
`(0, -1)`, whose scan key is `w * h`; every appended city's key is below
it and the row bound forces `0 ≤ y < h` alongside `0 ≤ x < w`. -/
theorem load_pbm_p1_bounds (w h : Nat) (lines : List (List Char))
    (cs : List (Int × Int)) (hok : load_pbm_p1 w h lines = (cs, none)) :
    ∀ c ∈ cs, 0 ≤ c.1 ∧ c.1 < (w : Int) ∧ 0 ≤ c.2 ∧ c.2 < (h : Int) := by
  rw [load_pbm_p1] at hok
  by_cases hwh : (w = 0 ∨ h = 0)
  · rw [if_pos hwh] at hok
    simp at hok
  · rw [if_neg hwh] at hok
    have hw : 1 ≤ w := by
      rcases Nat.eq_zero_or_pos w with h0 | h1
      · exact absurd (Or.inl h0) hwh
      · exact h1
    dsimp only at hok
    obtain ⟨_, hrow, _, _, hM⟩ :=
      p1Lines_shape w hw lines 0 ((h : Int) - 1) (by omega)
    cases he : (p1Lines w lines 0 ((h : Int) - 1)).2.2.2 with
    | some e =>
        rw [he] at hok
        simp at hok
    | none =>
        rw [he] at hok
        by_cases hcur : ((p1Lines w lines 0 ((h : Int) - 1)).2.1 = 0
            ∧ (p1Lines w lines 0 ((h : Int) - 1)).2.2.1 = -1)
        · rw [if_pos hcur] at hok
          have hcs : cs = (p1Lines w lines 0 ((h : Int) - 1)).1 :=
            (Prod.mk.injEq _ _ _ _ ▸ hok).1.symm
          subst hcs
          intro c hc
          obtain ⟨h1, h2, h3, _, h5⟩ := hM c hc
          rw [hcur.1, hcur.2] at h5
          have hfin : scanKey w ((0 : Nat) : Int) (-1) = (w : Int) := by
            unfold scanKey
            push_cast
            ring
          rw [hfin] at h5
          refine ⟨h1, h2, ?_, by omega⟩
          by_contra hneg
          have hy : c.2 ≤ -1 := by omega
          have hmul : c.2 * (w : Int) ≤ (-1) * (w : Int) :=
            mul_le_mul_of_nonneg_right hy (by positivity)
          unfold scanKey at h5
          linarith
        · rw [if_neg hcur] at hok
          simp at hok

/-- Claim C8: every successfully decoded bitmap (packed or text encoding)
yields its cities in strictly non-increasing y order, and among equal y in
strictly increasing x order (`cityOrd` pairwise). -/
theorem c8_bitmap_city_order :
    (∀ (w h : Nat) (stream : List Nat) (cs : List (Int × Int)),
        load_pbm_p4 w h stream = (cs, none) → cs.Pairwise cityOrd)
    ∧ (∀ (w h : Nat) (lines : List (List Char)) (cs : List (Int × Int)),
        load_pbm_p1 w h lines = (cs, none) → cs.Pairwise cityOrd) := by
  constructor
  · intro w h stream cs hok
    have hs := (load_pbm_p4_shape w h stream).1
    rw [hok] at hs
    exact hs
  · intro w h lines cs hok
    have hs := load_pbm_p1_sorted w h lines
    rw [hok] at hs
    exact hs

/-- Witness for claim C8: the spec's own 4x4 packed example decodes to
`[(0,3),(3,0)]` and a 2x2 text bitmap to `[(0,1),(1,0)]`, both in registry
order. -/
theorem c8_witness :
    List.Pairwise cityOrd [((0 : Int), (3 : Int)), (3, 0)]
    ∧ List.Pairwise cityOrd [((0 : Int), (1 : Int)), (1, 0)] :=
  ⟨c8_bitmap_city_order.1 4 4 [128, 0, 0, 16] _ (by decide),
   c8_bitmap_city_order.2 2 2 [['1', '0'], ['0', '1']] _ (by decide)⟩

/-- Claim C7 (as frozen) is false on the code: decoding is not atomic in
the registry state.  The packed decode of an 8x2 bitmap whose stream ends
after the single row byte 0x80 fails (controlled premature-end-of-data on
the second row's empty read), yet the registry still holds the city (0, 1)
appended while scanning the first row. -/
theorem c7_counterexample :
    (load_pbm_p4 8 2 [128]).2 ≠ none ∧ (load_pbm_p4 8 2 [128]).1 ≠ [] := by
  decide

/-- Claim C6 is contradicted by the code (code bug): a packed row that
cannot be fully read need not take the controlled premature-end-of-data
path.  With width 16 (two bytes per row), height 1 and a stream holding
only the byte 0xFF, the decoder consumes the eight pixels of the partial
byte and then raises an uncaught Python `IndexError` at
`row_bytes[column_byte_index]` (source line 146) -- an uncontrolled abort,
while the surrounding sanity checks and stderr messages show truncation was
meant to fail controlledly. -/
theorem c6_truncated_row_index_error :
    load_pbm_p4 16 1 [255] =
      ([(0, 0), (1, 0), (2, 0), (3, 0), (4, 0), (5, 0), (6, 0), (7, 0)],
        some P4Err.indexError) := by
  decide

/-- For a one-byte row (width at most 8), the column scan never errors:
the pixel mask first empties at column 8, which is never strictly before
the row's last pixel. -/
theorem p4Cols_single_byte_ok (w : Nat) (hw8 : w ≤ 8) (row : Int) (b : Nat) :
    ∀ n, ∀ col, col + n = w →
      (p4Cols w 1 [b] row n col 0 b (128 >>> col)).2 = none := by
  intro n
  induction n with
  | zero =>
      intro col _
      simp [p4Cols]
  | succ n ih =>
      intro col hcol
      rw [p4Cols]
      dsimp only
      have hmask1 : (128 >>> col) >>> 1 = 128 >>> (col + 1) :=
        (Nat.shiftRight_add 128 col 1).symm
      rw [hmask1]
      by_cases h8 : col + 1 ≥ 8
      · have hc7 : col = 7 := by omega
        subst hc7
        have hn0 : n = 0 := by omega
        subst hn0
        rw [if_pos (by decide)]
        rw [if_neg (by decide)]
        rw [if_neg (by omega)]
        simp [p4Cols]
      · have hne : 128 >>> (col + 1) ≠ 0 := by
          rw [Nat.shiftRight_eq_div_pow]
          have hp : 2 ^ (col + 1) ≤ 128 := by
            calc 2 ^ (col + 1) ≤ 2 ^ 7 :=
                  Nat.pow_le_pow_right (by omega) (by omega)
              _ = 128 := by norm_num
          exact Nat.ne_of_gt (Nat.div_pos hp (by positivity))
        rw [if_neg hne]
        dsimp only
        exact ih (col + 1) (by omega)

/-- Row recursion for claim C10: with one byte per row, when the i-th row
byte is 0x0A and all earlier row bytes are not, the scan of each earlier
row succeeds and the i-th row read `[0x0A]` is taken for a premature end of
data. -/
theorem p4Rows_0a (w : Nat) (hw1 : 1 ≤ w) (hw8 : w ≤ 8) :
    ∀ (i rowsLeft : Nat) (stream : List Nat), i < rowsLeft →
      stream.get? i = some 10 →
      (∀ j, j < i → ∃ b, stream.get? j = some b ∧ b ≠ 10) →
      (p4Rows w 1 rowsLeft stream).2 = some P4Err.truncated1 := by
  intro i
  induction i with
  | zero =>
      intro rowsLeft stream hlt hbyte _
      obtain ⟨r, rfl⟩ : ∃ r, rowsLeft = r + 1 := ⟨rowsLeft - 1, by omega⟩
      cases stream with
      | nil => simp at hbyte
      | cons b0 tail =>
          have hb0 : b0 = 10 := by simpa using hbyte
          subst hb0
          rw [p4Rows, if_pos (by simp)]
  | succ i ih =>
      intro rowsLeft stream hlt hbyte hpre
      obtain ⟨r, rfl⟩ : ∃ r, rowsLeft = r + 1 := ⟨rowsLeft - 1, by omega⟩
      cases stream with
      | nil => simp at hbyte
      | cons b0 tail =>
          obtain ⟨b, hb, hbne⟩ := hpre 0 (Nat.succ_pos i)
          have hb0 : b0 = b := by simpa using hb
          have hbne0 : b0 ≠ 10 := by rw [hb0]; exact hbne
          rw [p4Rows]
          rw [if_neg (by simp [hbne0])]
          dsimp only
          simp only [List.take_succ_cons, List.take_zero, List.headD_cons,
            List.drop_succ_cons, List.drop_zero]
          have hcols :
              (p4Cols w 1 [b0] ((r : Nat) : Int) w 0 0 b0 128).2 = none := by
            have := p4Cols_single_byte_ok w hw8 ((r : Nat) : Int) b0 w 0
              (by omega)
            simpa using this
          rw [hcols]
          exact ih r tail (by omega) (by simpa using hbyte)
            (fun j hj => by
              obtain ⟨bj, hbj, hbjne⟩ := hpre (j + 1) (by omega)
              exact ⟨bj, by simpa using hbj, hbjne⟩)

/-- Claim C10: the packed decoder wrongly rejects a legal pixel byte 0x0A.
For any width in [1, 8] (one byte per row), whenever the i-th row's byte is
0x0A and the earlier row bytes are not, decoding fails with the
premature-end-of-data path (`1 Premature end-of-data`, return False) even
though the stream may contain every advertised row byte -- e.g. the
well-formed 8x1 bitmap whose single data byte is 0x0A (pixels 00001010) is
rejected. -/
theorem c10_0a_row_rejected (w h i : Nat) (stream : List Nat)
    (hw1 : 1 ≤ w) (hw8 : w ≤ 8) (hih : i < h)
    (hbyte : stream.get? i = some 10)
    (hpre : ∀ j, j < i → ∃ b, stream.get? j = some b ∧ b ≠ 10) :
    (load_pbm_p4 w h stream).2 = some P4Err.truncated1 := by
  rw [load_pbm_p4, if_neg (by omega)]
  have hnb : (w + 7) / 8 = 1 := by omega
  rw [hnb]
  exact p4Rows_0a w hw1 hw8 i h stream hih hbyte hpre

/-- Witness for claim C10: the well-formed 8x1 packed bitmap with exactly
its one advertised data byte 0x0A is rejected as truncated. -/
theorem c10_witness :
    (load_pbm_p4 8 1 [10]).2 = some P4Err.truncated1 :=
  c10_0a_row_rejected 8 1 0 [10] (by decide) (by decide) (by decide)
    (by decide) (fun j hj => absurd hj (by omega))

/-! ## Point-file decoder lemmas -/

theorem xyrCollect_lengths :
    ∀ (lines : List XyrLine) (px py : List ℚ),
      xyrCollect lines = some (px, py) → px.length = py.length := by
  intro lines
  induction lines with
  | nil =>
      intro px py h
      simp [xyrCollect] at h
      rw [h.1, h.2]
  | cons line rest ih =>
      intro px py h
      cases line with
      | comment => exact ih px py h
      | vals fs =>
          rw [xyrCollect] at h
          by_cases hc : (fs.length = 2 ∨ fs.length = 3)
          · rw [if_pos hc] at h
            cases hrest : xyrCollect rest with
            | none => rw [hrest] at h; simp at h
            | some pq =>
                rw [hrest] at h
                simp only [Option.map_some', Option.some.injEq,
                  Prod.mk.injEq] at h
                obtain ⟨h1, h2⟩ := h
                rw [← h1, ← h2]
                simp only [List.length_cons]
                have hlen := ih pq.1 pq.2 (by rw [hrest])
                omega
          · rw [if_neg hc] at h
            simp at h

theorem min?_some_of_ne_nil (l : List ℚ) (h : l ≠ []) :
    ∃ a, l.min? = some a := by
  cases hm : l.min? with
  | none => exact absurd (List.min?_eq_none_iff.mp hm) h
  | some a => exact ⟨a, rfl⟩

theorem max?_some_of_ne_nil (l : List ℚ) (h : l ≠ []) :
    ∃ a, l.max? = some a := by
  cases hm : l.max? with
  | none => exact absurd (List.max?_eq_none_iff.mp hm) h
  | some a => exact ⟨a, rfl⟩

theorem min?_iff_rat (l : List ℚ) (a : ℚ) :
    l.min? = some a ↔ a ∈ l ∧ ∀ b ∈ l, a ≤ b := by
  haveI : Std.Antisymm (fun x y : ℚ => x ≤ y) :=
    ⟨fun hxy hyx => le_antisymm hxy hyx⟩
  exact List.min?_eq_some_iff (fun x => le_refl x)
    (fun x y => min_choice x y) (fun x y z => le_min_iff)

theorem max?_iff_rat (l : List ℚ) (a : ℚ) :
    l.max? = some a ↔ a ∈ l ∧ ∀ b ∈ l, b ≤ a := by
  haveI : Std.Antisymm (fun x y : ℚ => x ≤ y) :=
    ⟨fun hxy hyx => le_antisymm hxy hyx⟩
  exact List.max?_eq_some_iff (fun x => le_refl x)
    (fun x y => max_choice x y) (fun x y z => max_le_iff)

/-- The source's `min(min(px), min(py))` is the single combined minimum
over both coordinate lists. -/
theorem min?_append_comb (px py : List ℚ) (a b : ℚ)
    (ha : px.min? = some a) (hb : py.min? = some b) :
    (px ++ py).min? = some (min a b) := by
  rw [min?_iff_rat] at ha hb ⊢
  obtain ⟨ham, hale⟩ := ha
  obtain ⟨hbm, hble⟩ := hb
  constructor
  · rcases min_choice a b with h | h <;> rw [h]
    · exact List.mem_append.mpr (Or.inl ham)
    · exact List.mem_append.mpr (Or.inr hbm)
  · intro c hc
    rcases List.mem_append.mp hc with h | h
    · exact le_trans (min_le_left a b) (hale c h)
    · exact le_trans (min_le_right a b) (hble c h)

/-- The source's `max(max(px), max(py))` is the single combined maximum
over both coordinate lists. -/
theorem max?_append_comb (px py : List ℚ) (a b : ℚ)
    (ha : px.max? = some a) (hb : py.max? = some b) :
    (px ++ py).max? = some (max a b) := by
  rw [max?_iff_rat] at ha hb ⊢
  obtain ⟨ham, hale⟩ := ha
  obtain ⟨hbm, hble⟩ := hb
  constructor
  · rcases max_choice a b with h | h <;> rw [h]
    · exact List.mem_append.mpr (Or.inl ham)
    · exact List.mem_append.mpr (Or.inr hbm)
  · intro c hc
    rcases List.mem_append.mp hc with h | h
    · exact le_trans (hale c h) (le_max_left a b)
    · exact le_trans (hble c h) (le_max_right a b)

/-- Evaluation of `__load_xyr` once collection succeeded and the four
per-axis extrema are known. -/
theorem load_xyr_eval (lines : List XyrLine) (px py : List ℚ)
    (mnx mny mxx mxy : ℚ)
    (hcoll : xyrCollect lines = some (px, py))
    (h1 : px.min? = some mnx) (h2 : py.min? = some mny)
    (h3 : px.max? = some mxx) (h4 : py.max? = some mxy) :
    load_xyr lines =
      ((px.zip py).map (fun v =>
        (round ((v.1 - min mnx mny) *
          (if 0 < max mxx mxy - min mnx mny
            then BOXSIZE / (max mxx mxy - min mnx mny) else 1)),
         round ((v.2 - min mnx mny) *
          (if 0 < max mxx mxy - min mnx mny
            then BOXSIZE / (max mxx mxy - min mnx mny) else 1)))), none) := by
  rw [load_xyr, hcoll]
  simp only [h1, h2, h3, h4]

theorem round_le_round_rat {x y : ℚ} (h : x ≤ y) : round x ≤ round y := by
  rw [round_eq, round_eq]
  exact Int.floor_le_floor (by linarith)

/-- Claim C5: the point decoder computes one scalar minimum and maximum
over all x and y values combined (`min(min px, min py)` is the minimum of
`px ++ py`, likewise the maximum), scales by `BOXSIZE / (max - min)` when
`max > min` and by `1` otherwise, and maps every raw value `v` through
`round((v - min) * scale)` with the same `min` and `scale` on both axes;
in particular an all-identical point file decodes without division by zero
and every resulting city is the same integer point `(0, 0)`. -/
theorem c5_xyr_combined_normalization :
    (∀ (lines : List XyrLine) (px py : List ℚ),
      xyrCollect lines = some (px, py) → px ≠ [] →
      ∃ fmin fmax : ℚ,
        (px ++ py).min? = some fmin ∧ (px ++ py).max? = some fmax ∧
        load_xyr lines =
          ((px.zip py).map (fun v =>
            (round ((v.1 - fmin) *
              (if fmin < fmax then BOXSIZE / (fmax - fmin) else 1)),
             round ((v.2 - fmin) *
              (if fmin < fmax then BOXSIZE / (fmax - fmin) else 1)))), none))
    ∧ (∀ (lines : List XyrLine) (px py : List ℚ) (q : ℚ),
      xyrCollect lines = some (px, py) → px ≠ [] →
      (∀ v ∈ px, v = q) → (∀ v ∈ py, v = q) →
      (load_xyr lines).2 = none
        ∧ ∀ c ∈ (load_xyr lines).1, c = (0, 0)) := by
  constructor
  · intro lines px py hcoll hne
    have hpy : py ≠ [] := by
      intro hnil
      have hlen := xyrCollect_lengths lines px py hcoll
      rw [hnil] at hlen
      exact hne (List.length_eq_zero.mp (by simpa using hlen))
    obtain ⟨mnx, h1⟩ := min?_some_of_ne_nil px hne
    obtain ⟨mny, h2⟩ := min?_some_of_ne_nil py hpy
    obtain ⟨mxx, h3⟩ := max?_some_of_ne_nil px hne
    obtain ⟨mxy, h4⟩ := max?_some_of_ne_nil py hpy
    refine ⟨min mnx mny, max mxx mxy,
      min?_append_comb px py mnx mny h1 h2,
      max?_append_comb px py mxx mxy h3 h4, ?_⟩
    rw [load_xyr_eval lines px py mnx mny mxx mxy hcoll h1 h2 h3 h4]
    simp only [sub_pos]
  · intro lines px py q hcoll hne hallx hally
    have hpy : py ≠ [] := by
      intro hnil
      have hlen := xyrCollect_lengths lines px py hcoll
      rw [hnil] at hlen
      exact hne (List.length_eq_zero.mp (by simpa using hlen))
    obtain ⟨mnx, h1⟩ := min?_some_of_ne_nil px hne
    obtain ⟨mny, h2⟩ := min?_some_of_ne_nil py hpy
    obtain ⟨mxx, h3⟩ := max?_some_of_ne_nil px hne
    obtain ⟨mxy, h4⟩ := max?_some_of_ne_nil py hpy
    have e1 : mnx = q :=
      hallx mnx (List.min?_mem (fun x y => min_choice x y) h1)
    have e2 : mny = q :=
      hally mny (List.min?_mem (fun x y => min_choice x y) h2)
    have e3 : mxx = q :=
      hallx mxx (List.max?_mem (fun x y => max_choice x y) h3)
    have e4 : mxy = q :=
      hally mxy (List.max?_mem (fun x y => max_choice x y) h4)
    rw [load_xyr_eval lines px py mnx mny mxx mxy hcoll h1 h2 h3 h4, e1, e2,
      e3, e4]
    constructor
    · rfl
    · intro c hc
      simp only [List.mem_map] at hc
      obtain ⟨v, hv, rfl⟩ := hc
      have hvx : v.1 ∈ px ∧ v.2 ∈ py := by
        have : (v.1, v.2) ∈ px.zip py := by
          rw [Prod.mk.eta]
          exact hv
        exact List.of_mem_zip this
      have hx := hallx v.1 hvx.1
      have hy := hally v.2 hvx.2
      rw [hx, hy]
      simp

/-- Witness for claim C5: the spec's example point file (px = py = [0, 10])
has combined extrema 0 and 10, and the all-identical file with both
records equal to (1, 1) decodes to cities all equal to (0, 0). -/
theorem c5_witness :
    (∃ fmin fmax : ℚ,
      (([0, 10] : List ℚ) ++ [0, 10]).min? = some fmin
      ∧ (([0, 10] : List ℚ) ++ [0, 10]).max? = some fmax
      ∧ load_xyr [XyrLine.vals [0, 0, 1], XyrLine.vals [10, 10, 1]] =
        ((([0, 10] : List ℚ).zip [0, 10]).map (fun v =>
          (round ((v.1 - fmin) *
            (if fmin < fmax then BOXSIZE / (fmax - fmin) else 1)),
           round ((v.2 - fmin) *
            (if fmin < fmax then BOXSIZE / (fmax - fmin) else 1)))), none))
    ∧ ((load_xyr [XyrLine.vals [1, 1], XyrLine.vals [1, 1, 1]]).2 = none
      ∧ ∀ c ∈ (load_xyr [XyrLine.vals [1, 1], XyrLine.vals [1, 1, 1]]).1,
          c = (0, 0)) :=
  ⟨c5_xyr_combined_normalization.1
      [XyrLine.vals [0, 0, 1], XyrLine.vals [10, 10, 1]] [0, 10] [0, 10]
      rfl (by simp),
   c5_xyr_combined_normalization.2
      [XyrLine.vals [1, 1], XyrLine.vals [1, 1, 1]] [1, 1] [1, 1] 1
      rfl (by simp) (by intro v hv; simpa using hv)
      (by intro v hv; simpa using hv)⟩

/-- Claim C9 (as frozen) is false on the code: a point file with zero
records does make the decode abort, but not through a controlled
`EmptyInput` failure -- line 258's `min(px)` on the empty list raises an
uncaught Python `ValueError` that propagates out of `load()`. -/
theorem c9_counterexample :
    load_xyr [XyrLine.comment] = ([], some XyrErr.exnMinEmpty)
    ∧ (load_xyr [XyrLine.comment]).2 ≠ some XyrErr.emptyInput := by
  have h : load_xyr [XyrLine.comment] = ([], some XyrErr.exnMinEmpty) := rfl
  refine ⟨h, ?_⟩
  rw [h]
  decide

/-- Claim C9 (amended): for every point file from which zero records are
read, decoding aborts by raising an uncaught `ValueError` (taking the
minimum of an empty sequence), not with a controlled `EmptyInput`
failure; no cities are produced. -/
theorem c9_amended_empty_raises (lines : List XyrLine)
    (hcoll : xyrCollect lines = some ([], [])) :
    load_xyr lines = ([], some XyrErr.exnMinEmpty) := by
  rw [load_xyr, hcoll]
  rfl

/-- Witness for the amended claim C9: a file holding only a comment line. -/
theorem c9_witness :
    load_xyr [XyrLine.comment] = ([], some XyrErr.exnMinEmpty) :=
  c9_amended_empty_raises [XyrLine.comment] rfl

/-- Every value between the combined extrema lands in `[0, BOXSIZE]` after
the decoder's scaling and rounding -- including, at `v = fmax`, exactly
`BOXSIZE` itself. -/
theorem xyr_scaled_bounds (fmin fmax v : ℚ) (h1 : fmin ≤ v) (h2 : v ≤ fmax) :
    0 ≤ round ((v - fmin) *
        (if 0 < fmax - fmin then BOXSIZE / (fmax - fmin) else 1))
    ∧ round ((v - fmin) *
        (if 0 < fmax - fmin then BOXSIZE / (fmax - fmin) else 1))
      ≤ 800 := by
  have hq1 : 0 ≤ (v - fmin) *
      (if 0 < fmax - fmin then BOXSIZE / (fmax - fmin) else 1) := by
    apply mul_nonneg (by linarith)
    split
    · rename_i hpos
      exact div_nonneg (by norm_num [BOXSIZE]) (le_of_lt hpos)
    · norm_num
  have hq2 : (v - fmin) *
      (if 0 < fmax - fmin then BOXSIZE / (fmax - fmin) else 1) ≤ 800 := by
    split
    · rename_i hpos
      have hne : fmax - fmin ≠ 0 := ne_of_gt hpos
      have hstep : (v - fmin) * (BOXSIZE / (fmax - fmin))
          ≤ (fmax - fmin) * (BOXSIZE / (fmax - fmin)) := by
        apply mul_le_mul_of_nonneg_right (by linarith)
        exact div_nonneg (by norm_num [BOXSIZE]) (le_of_lt hpos)
      have hcancel : (fmax - fmin) * (BOXSIZE / (fmax - fmin)) = 800 := by
        rw [mul_comm, div_mul_cancel₀]
        · rfl
        · exact hne
      linarith
    · rename_i hnpos
      have hveq : v - fmin = 0 := by
        have : fmax - fmin ≤ 0 := le_of_not_lt hnpos
        linarith
      rw [hveq]
      norm_num
  constructor
  · have hz := round_le_round_rat hq1
    rw [round_zero] at hz
    exact hz
  · have hz := round_le_round_rat hq2
    have h800 : round ((800 : ℚ)) = 800 := by
      norm_num
    rw [h800] at hz
    exact hz

/-- Bounds of a successful point-file decode: both coordinates of every
city lie in `[0, BOXSIZE]` -- inclusive at the top. -/
theorem load_xyr_bounds (lines : List XyrLine) (cs : List (Int × Int))
    (hok : load_xyr lines = (cs, none)) :
    ∀ c ∈ cs,
      0 ≤ c.1 ∧ c.1 ≤ (xyrBox : Int) ∧ 0 ≤ c.2 ∧ c.2 ≤ (xyrBox : Int) := by
  cases hcoll : xyrCollect lines with
  | none =>
      rw [load_xyr, hcoll] at hok
      have h2 : (some XyrErr.invalidContent : Option XyrErr) = none :=
        congrArg Prod.snd hok
      simp at h2
  | some pq =>
      obtain ⟨px, py⟩ := pq
      by_cases hne : px = []
      · have hpyn : py = [] := by
          have hlen := xyrCollect_lengths lines px py hcoll
          rw [hne] at hlen
          exact (List.length_eq_zero.mp (by simpa using hlen.symm))
        subst hne hpyn
        rw [load_xyr, hcoll] at hok
        have h2 : (some XyrErr.exnMinEmpty : Option XyrErr) = none :=
          congrArg Prod.snd hok
        simp at h2
      · have hpy : py ≠ [] := by
          intro hnil
          have hlen := xyrCollect_lengths lines px py hcoll
          rw [hnil] at hlen
          exact hne (List.length_eq_zero.mp (by simpa using hlen))
        obtain ⟨mnx, h1⟩ := min?_some_of_ne_nil px hne
        obtain ⟨mny, h2⟩ := min?_some_of_ne_nil py hpy
        obtain ⟨mxx, h3⟩ := max?_some_of_ne_nil px hne
        obtain ⟨mxy, h4⟩ := max?_some_of_ne_nil py hpy
        rw [load_xyr_eval lines px py mnx mny mxx mxy hcoll h1 h2 h3 h4]
          at hok
        have hcs : cs = (px.zip py).map (fun v =>
            (round ((v.1 - min mnx mny) *
              (if 0 < max mxx mxy - min mnx mny
                then BOXSIZE / (max mxx mxy - min mnx mny) else 1)),
             round ((v.2 - min mnx mny) *
              (if 0 < max mxx mxy - min mnx mny
                then BOXSIZE / (max mxx mxy - min mnx mny) else 1)))) :=
          (congrArg Prod.fst hok).symm
        subst hcs
        intro c hc
        simp only [List.mem_map] at hc
        obtain ⟨v, hv, rfl⟩ := hc
        have hvm : v.1 ∈ px ∧ v.2 ∈ py := by
          have hpair : (v.1, v.2) ∈ px.zip py := by
            rw [Prod.mk.eta]
            exact hv
          exact List.of_mem_zip hpair
        have hx1 : min mnx mny ≤ v.1 :=
          le_trans (min_le_left _ _) (((min?_iff_rat px mnx).mp h1).2 v.1 hvm.1)
        have hx2 : v.1 ≤ max mxx mxy :=
          le_trans (((max?_iff_rat px mxx).mp h3).2 v.1 hvm.1) (le_max_left _ _)
        have hy1 : min mnx mny ≤ v.2 :=
          le_trans (min_le_right _ _) (((min?_iff_rat py mny).mp h2).2 v.2 hvm.2)
        have hy2 : v.2 ≤ max mxx mxy :=
          le_trans (((max?_iff_rat py mxy).mp h4).2 v.2 hvm.2) (le_max_right _ _)
        have hbx := xyr_scaled_bounds (min mnx mny) (max mxx mxy) v.1 hx1 hx2
        have hby := xyr_scaled_bounds (min mnx mny) (max mxx mxy) v.2 hy1 hy2
        have hbox : (xyrBox : Int) = 800 := by norm_num [xyrBox]
        rw [hbox]
        exact ⟨hbx.1, hbx.2, hby.1, hby.2⟩

/-- Evaluation of the spec's example point file `(0,0,1)`, `(10,10,1)`:
scale is `800 / 10 = 80` and the maximal point maps to exactly (800, 800). -/
theorem xyr_example_eval :
    load_xyr [XyrLine.vals [0, 0, 1], XyrLine.vals [10, 10, 1]] =
      ([(0, 0), (800, 800)], none) := by
  have hcoll : xyrCollect [XyrLine.vals [0, 0, 1], XyrLine.vals [10, 10, 1]]
      = some ([0, 10], [0, 10]) := rfl
  have h1 : ([(0 : ℚ), 10]).min? = some 0 := by
    rw [List.min?_cons']
    norm_num [List.foldl]
  have h3 : ([(0 : ℚ), 10]).max? = some 10 := by
    rw [List.max?_cons']
    norm_num [List.foldl]
  rw [load_xyr_eval _ _ _ 0 0 10 10 hcoll h1 h1 h3 h3]
  norm_num [BOXSIZE, List.zip_cons_cons]

/-- Claim C3 (as frozen) is false on the code: the point-file decoder can
produce a city whose coordinate equals the box size.  The spec's own
example file with raw points (0,0) and (10,10) decodes successfully to
`[(0,0), (800,800)]` with reported width = height = 800, and `800 < 800`
fails: the maximal raw value always maps to `round(BOXSIZE) = 800`. -/
theorem c3_counterexample :
    (load_xyr [XyrLine.vals [0, 0, 1], XyrLine.vals [10, 10, 1]]).2 = none
    ∧ ¬(∀ c ∈ (load_xyr [XyrLine.vals [0, 0, 1],
          XyrLine.vals [10, 10, 1]]).1,
        c.1 < (xyrBox : Int) ∧ c.2 < (xyrBox : Int)) := by
  have h := xyr_example_eval
  constructor
  · rw [h]
  · rw [h]
    intro hall
    have hc := hall (800, 800) (by simp)
    norm_num [xyrBox] at hc

/-- Claim C3 (amended): every city of a successful bitmap decode (packed
or text) satisfies `0 ≤ x < width` and `0 ≤ y < height`; every city of a
successful point-file decode satisfies `0 ≤ x ≤ BOXSIZE` and
`0 ≤ y ≤ BOXSIZE` -- the upper bound is inclusive for point files, since
the maximal raw value maps to exactly `BOXSIZE`. -/
theorem c3_amended_city_bounds :
    (∀ (w h : Nat) (stream : List Nat) (cs : List (Int × Int)),
        load_pbm_p4 w h stream = (cs, none) →
        ∀ c ∈ cs, 0 ≤ c.1 ∧ c.1 < (w : Int) ∧ 0 ≤ c.2 ∧ c.2 < (h : Int))
    ∧ (∀ (w h : Nat) (lines : List (List Char)) (cs : List (Int × Int)),
        load_pbm_p1 w h lines = (cs, none) →
        ∀ c ∈ cs, 0 ≤ c.1 ∧ c.1 < (w : Int) ∧ 0 ≤ c.2 ∧ c.2 < (h : Int))
    ∧ (∀ (lines : List XyrLine) (cs : List (Int × Int)),
        load_xyr lines = (cs, none) →
        ∀ c ∈ cs,
          0 ≤ c.1 ∧ c.1 ≤ (xyrBox : Int)
            ∧ 0 ≤ c.2 ∧ c.2 ≤ (xyrBox : Int)) := by
  refine ⟨?_, fun w h lines cs hok => load_pbm_p1_bounds w h lines cs hok,
    fun lines cs hok => load_xyr_bounds lines cs hok⟩
  intro w h stream cs hok
  have hs := (load_pbm_p4_shape w h stream).2
  rw [hok] at hs
  exact hs

/-- Witness for the amended claim C3 on a packed 4x4 bitmap, a text 2x2
bitmap and the example point file. -/
theorem c3_witness :
    (∀ c ∈ [((0 : Int), (3 : Int)), (3, 0)],
        0 ≤ c.1 ∧ c.1 < ((4 : Nat) : Int) ∧ 0 ≤ c.2 ∧ c.2 < ((4 : Nat) : Int))
    ∧ (∀ c ∈ [((0 : Int), (1 : Int)), (1, 0)],
        0 ≤ c.1 ∧ c.1 < ((2 : Nat) : Int) ∧ 0 ≤ c.2 ∧ c.2 < ((2 : Nat) : Int))
    ∧ (∀ c ∈ [((0 : Int), (0 : Int)), (800, 800)],
        0 ≤ c.1 ∧ c.1 ≤ (xyrBox : Int) ∧ 0 ≤ c.2 ∧ c.2 ≤ (xyrBox : Int)) :=
  ⟨c3_amended_city_bounds.1 4 4 [128, 0, 0, 16] _ (by decide),
   c3_amended_city_bounds.2.1 2 2 [['1', '0'], ['0', '1']] _ (by decide),
   c3_amended_city_bounds.2.2 [XyrLine.vals [0, 0, 1], XyrLine.vals [10, 10, 1]]
     _ xyr_example_eval⟩

/-- Preparatory fact for claim C7: `__load_xyr` never appends a city
before its failure points (field-count check during collection, `min` of
an empty list), so a failed point-file decode always leaves the registry
empty. -/
theorem load_xyr_fail_empty (lines : List XyrLine) (cs : List (Int × Int))
    (e : XyrErr) (hfail : load_xyr lines = (cs, some e)) : cs = [] := by
  cases hcoll : xyrCollect lines with
  | none =>
      rw [load_xyr, hcoll] at hfail
      exact (congrArg Prod.fst hfail).symm
  | some pq =>
      obtain ⟨px, py⟩ := pq
      by_cases hne : px = []
      · have hpyn : py = [] := by
          have hlen := xyrCollect_lengths lines px py hcoll
          rw [hne] at hlen
          exact (List.length_eq_zero.mp (by simpa using hlen.symm))
        subst hne hpyn
        rw [load_xyr, hcoll] at hfail
        exact (congrArg Prod.fst hfail).symm
      · have hpy : py ≠ [] := by
          intro hnil
          have hlen := xyrCollect_lengths lines px py hcoll
          rw [hnil] at hlen
          exact hne (List.length_eq_zero.mp (by simpa using hlen))
        obtain ⟨mnx, h1⟩ := min?_some_of_ne_nil px hne
        obtain ⟨mny, h2⟩ := min?_some_of_ne_nil py hpy
        obtain ⟨mxx, h3⟩ := max?_some_of_ne_nil px hne
        obtain ⟨mxy, h4⟩ := max?_some_of_ne_nil py hpy
        rw [load_xyr_eval lines px py mnx mny mxx mxy hcoll h1 h2 h3 h4]
          at hfail
        have hcontra : (none : Option XyrErr) = some e :=
          congrArg Prod.snd hfail
        simp at hcontra

/-- Claim C7 (amended): only the point-file decode is atomic -- a failed
`__load_xyr` run always leaves the registry empty -- while the bitmap
decoders retain the cities appended before the failure point, the failure
being signalled only by the returned outcome: a failed packed decode
(8x2 bitmap, stream ending after the byte 0x80) leaves `[(0, 1)]` in the
registry, and a failed text decode (2x2 bitmap fed the single line
`11111`) retains five cities including the out-of-bounds `(0, -1)`,
because the `row < 0` check only runs at line starts. -/
theorem c7_amended_atomicity :
    (∀ (lines : List XyrLine) (cs : List (Int × Int)) (e : XyrErr),
        load_xyr lines = (cs, some e) → cs = [])
    ∧ load_pbm_p4 8 2 [128] = ([(0, 1)], some P4Err.truncated1)
    ∧ load_pbm_p1 2 2 [['1', '1', '1', '1', '1']] =
        ([(0, 1), (1, 1), (0, 0), (1, 0), (0, -1)], some P1Err.truncated) :=
  ⟨fun lines cs e hfail => load_xyr_fail_empty lines cs e hfail,
   by decide, by decide⟩

/-- Witness for the amended claim C7: its point-file part applied to a
concrete failing decode (a record with four fields). -/
theorem c7_witness :
    ([] : List (Int × Int)) = [] :=
  c7_amended_atomicity.1 [XyrLine.vals [1, 2, 3, 4]] []
    XyrErr.invalidContent rfl
